import Mathlib

/-!
Verification development for the diff-capture / replay core
(`src/capture/capture_tool.py`, `src/replay/replay_engine.py`,
`src/replay/vscode_controller.py`).

Python floats are modelled as rationals (`ℚ`), Python strings as `String`,
and Python lists as `List`.  Stochastic library calls (`random.random`,
`random.gauss`, `random.uniform`, `random.choice`) are modelled as draws
from an explicit stream of rationals (`List ℚ`) that stands for the state
of the process-global `random` module: every call consumes the head of the
stream, mirroring the fact that all of these calls advance one shared
global generator.
-/

/-! ## Diff compiler (`capture_tool.py`, class `DiffParser`) -/

/-- One content line of a unified-diff hunk, as classified by
`unidiff` (`line.is_removed` / `line.is_added` / context).  The payload is
`line.value`: the line text including its terminator. -/
inductive DiffLine where
  | removed (v : String)
  | added (v : String)
  | context (v : String)
deriving DecidableEq, Repr

/-- A hunk as produced by `unidiff`: declared starting line numbers
`source_start` / `target_start` and the classified content lines. -/
structure Hunk where
  source_start : Nat
  target_start : Nat
  lines : List DiffLine
deriving DecidableEq, Repr

/-- `DiffOperation` from `capture_tool.py`: `op_type` is one of
`"navigate"`, `"delete"`, `"insert"`. -/
structure DiffOperation where
  op_type : String
  line : Nat
  line_end : Option Nat := none
  content : Option String := none
deriving DecidableEq, Repr

/-- A patched file as produced by `unidiff` (`PatchedFile`): the fields read
by `DiffParser._process_patched_file`. -/
structure PatchedFile where
  path : String
  is_binary_file : Bool
  is_removed_file : Bool
  is_added_file : Bool
  hunks : List Hunk
deriving DecidableEq, Repr

/-- `FileChanges` from `capture_tool.py`. -/
structure FileChanges where
  path : String
  is_new : Bool := false
  is_deleted : Bool := false
  operations : List DiffOperation := []
deriving DecidableEq, Repr

/-- The hunk-walking loop of `DiffParser._process_hunk` (lines 251-264):
two independent counters start at the hunk's declared starting lines;
removed lines record the source counter, added lines the target counter,
context lines advance both. -/
def collectLines : Nat → Nat → List DiffLine → List (Nat × String) × List (Nat × String)
  | _, _, [] => ([], [])
  | srcLn, tgtLn, l :: rest =>
    match l with
    | .removed v =>
      let (r, a) := collectLines (srcLn + 1) tgtLn rest
      ((srcLn, v) :: r, a)
    | .added v =>
      let (r, a) := collectLines srcLn (tgtLn + 1) rest
      (r, (tgtLn, v) :: a)
    | .context _ => collectLines (srcLn + 1) (tgtLn + 1) rest

/-- The grouping loop of `DiffParser._build_delete_operations`
(lines 296-312): `cs`/`ce` mirror `current_start`/`current_end`, a line
number equal to `current_end + 1` extends the group, anything else closes
it and starts a new one; the final group is appended at the end. -/
def deleteGroupsAux (cs ce : Nat) : List (Nat × String) → List (Nat × Nat)
  | [] => [(cs, ce)]
  | (n, _) :: rest =>
    if n = ce + 1 then deleteGroupsAux cs n rest
    else (cs, ce) :: deleteGroupsAux n n rest

/-- The `(start, end)` groups computed by `DiffParser._build_delete_operations`
for a given removed-line buffer (empty input short-circuits to `[]`). -/
def deleteGroups : List (Nat × String) → List (Nat × Nat)
  | [] => []
  | (n, _) :: rest => deleteGroupsAux n n rest

/-- `DiffParser._build_delete_operations`: one delete operation per group,
`line_end` present only when it differs from `line` (lines 318-323). -/
def buildDeleteOperations (removed : List (Nat × String)) : List DiffOperation :=
  (deleteGroups removed).map fun g =>
    { op_type := "delete", line := g.1,
      line_end := if g.2 ≠ g.1 then some g.2 else none, content := none }

/-- The grouping loop of `DiffParser._build_insert_operations`
(lines 347-363).  `cur` mirrors `current_group`; `prev` carries
`current_group[-1][0]`, the line number of the last element of `cur`. -/
def insertGroupsAux (cur : List (Nat × String)) (prev : Nat) :
    List (Nat × String) → List (List (Nat × String))
  | [] => [cur]
  | (n, v) :: rest =>
    if n = prev + 1 then insertGroupsAux (cur ++ [(n, v)]) n rest
    else cur :: insertGroupsAux [(n, v)] n rest

/-- The groups computed by `DiffParser._build_insert_operations` for a given
added-line buffer (empty input short-circuits to `[]`). -/
def insertGroups : List (Nat × String) → List (List (Nat × String))
  | [] => []
  | x :: rest => insertGroupsAux [x] x.1 rest

/-- `DiffParser._build_insert_operations`: one insert operation per group,
`line` is the group's first line number and `content` is the exact
concatenation of the grouped line values (lines 366-380). -/
def buildInsertOperations (added : List (Nat × String)) : List DiffOperation :=
  (insertGroups added).map fun grp =>
    { op_type := "insert", line := (grp.headD (0, "")).1,
      line_end := none, content := some (String.join (grp.map Prod.snd)) }

/-- The delete block of `DiffParser._process_hunk` (lines 266-268):
suppressed when the removed buffer is empty or the file is new. -/
def hunkDeleteOps (h : Hunk) (isNewFile : Bool) : List DiffOperation :=
  let removed := (collectLines h.source_start h.target_start h.lines).1
  if removed ≠ [] ∧ isNewFile = false then buildDeleteOperations removed else []

/-- The insert block of `DiffParser._process_hunk` (lines 270-272). -/
def hunkInsertOps (h : Hunk) : List DiffOperation :=
  let added := (collectLines h.source_start h.target_start h.lines).2
  if added ≠ [] then buildInsertOperations added else []

/-- `DiffParser._process_hunk`: the hunk's delete operations followed by its
insert operations. -/
def processHunk (h : Hunk) (isNewFile : Bool) : List DiffOperation :=
  hunkDeleteOps h isNewFile ++ hunkInsertOps h

/-- The `b/`-prefix strip of `DiffParser._process_patched_file`
(lines 196-198), written on the character list so that it computes. -/
def stripB (p : String) : String :=
  if p.data.take 2 = ['b', '/'] then String.mk (p.data.drop 2) else p

/-- `DiffParser._process_patched_file`: binary and deleted files are skipped
(returning `none` and recording a warning in the source); otherwise the
per-hunk operations are appended in hunk encounter order. -/
def processPatchedFile (pf : PatchedFile) : Option FileChanges :=
  if pf.is_binary_file then none
  else if pf.is_removed_file then none
  else some
    { path := stripB pf.path, is_new := pf.is_added_file, is_deleted := false,
      operations := (pf.hunks.map fun h => processHunk h pf.is_added_file).flatten }

/-- Stable insertion of a `FileChanges` into a path-sorted list; models the
stable ascending `result.sort(key=lambda x: x.path)`. -/
def insertByPath (fc : FileChanges) : List FileChanges → List FileChanges
  | [] => [fc]
  | y :: ys => if y.path ≤ fc.path then y :: insertByPath fc ys else fc :: y :: ys

/-- Sort a `FileChanges` list by path (model of Python list.sort by key). -/
def sortByPath : List FileChanges → List FileChanges
  | [] => []
  | x :: xs => insertByPath x (sortByPath xs)

/-- `DiffParser._process_patch_set`: process each file, keep the non-skipped
ones, sort by path. -/
def processPatchSet (ps : List PatchedFile) : List FileChanges :=
  sortByPath (ps.filterMap processPatchedFile)

/-- Modelled from the spec: the `unidiff.PatchSet` tokenizer used by
`DiffParser.parse_diff_text` is an external library, so it is taken as a
parameter `tok`; a raised `UnidiffParseError` is `Except.error`. -/
def parseDiffText (tok : String → Except String (List PatchedFile))
    (text : String) : Except String (List FileChanges) :=
  if text.data.all Char.isWhitespace then Except.ok []
  else
    match tok text with
    | .error e => .error ("Failed to parse diff: " ++ e)
    | .ok ps => .ok (processPatchSet ps)

/-! ## Application semantics for compiled operations (claim C1)

A document is a list of lines, each line carrying its terminator, numbered
from 1.  The semantics below is the claim's own: a delete removes the
inclusive line range it names, an insert places its content starting at the
line it names. -/

/-- Split a string into lines, each keeping its trailing newline. -/
def splitLinesAux (acc : List Char) : List Char → List String
  | [] => if acc = [] then [] else [String.mk acc.reverse]
  | c :: rest =>
    if c = '\n' then String.mk (acc.reverse ++ ['\n']) :: splitLinesAux [] rest
    else splitLinesAux (c :: acc) rest

/-- Line decomposition of an insert operation's content. -/
def splitLines (s : String) : List String := splitLinesAux [] s.data

/-- Apply one compiled operation to a document, per the claim's semantics:
`delete` removes lines `line .. line_end` (inclusive, defaulting to `line`),
`insert` places the lines of `content` starting at `line`. -/
def applyOperation (doc : List String) (op : DiffOperation) : List String :=
  if op.op_type = "delete" then
    doc.take (op.line - 1) ++ doc.drop (op.line_end.getD op.line)
  else if op.op_type = "insert" then
    doc.take (op.line - 1) ++ splitLines (op.content.getD ("")) ++ doc.drop (op.line - 1)
  else doc

/-- Apply a compiled operation list in emitted order. -/
def applyOperations (doc : List String) (ops : List DiffOperation) : List String :=
  ops.foldl applyOperation doc

/-- The post-image lines a hunk describes: context and added lines in order. -/
def hunkTargetLines (h : Hunk) : List String :=
  h.lines.filterMap fun l =>
    match l with
    | .removed _ => none
    | .added v => some v
    | .context v => some v

/-- The pre-image lines a hunk describes: context and removed lines in order. -/
def hunkSourceLines (h : Hunk) : List String :=
  h.lines.filterMap fun l =>
    match l with
    | .removed v => some v
    | .added _ => none
    | .context v => some v

/-! ## Concrete hunks used by the capture-side claims -/

/-- The single hunk of the diff
`@@ -1,3 +1,1 @@` / `-a` / ` b` / `-c` over the three-line file
`a\n b\n c\n`: lines 1 and 3 are removed, line 2 is context. -/
def hunkC1 : Hunk :=
  { source_start := 1, target_start := 1,
    lines := [.removed ("a\n"), .context ("b\n"), .removed ("c\n")] }

/-- Scenario A hunk: one line removed at source line 10, two lines added at
target lines 10 and 11. -/
def hunkA : Hunk :=
  { source_start := 10, target_start := 10,
    lines := [.removed ("old\n"), .added ("<L1>\n"), .added ("<L2>\n")] }

/-- A `PatchedFile` wrapping scenario A. -/
def pfA : PatchedFile :=
  { path := "b/f.py", is_binary_file := false, is_removed_file := false,
    is_added_file := false, hunks := [hunkA] }

/-- Scenario B hunk: a newly created file with three added lines
(`@@ -0,0 +1,3 @@`). -/
def hunkB : Hunk :=
  { source_start := 0, target_start := 1,
    lines := [.added ("A\n"), .added ("B\n"), .added ("C\n")] }

/-! ## Helper lemmas about the operation builders -/

lemma buildDeleteOperations_op_type (removed : List (Nat × String)) :
    ∀ op ∈ buildDeleteOperations removed, op.op_type = "delete" := by
  intro op hop
  simp only [buildDeleteOperations, List.mem_map] at hop
  obtain ⟨g, _, rfl⟩ := hop
  rfl

lemma buildInsertOperations_op_type (added : List (Nat × String)) :
    ∀ op ∈ buildInsertOperations added, op.op_type = "insert" := by
  intro op hop
  simp only [buildInsertOperations, List.mem_map] at hop
  obtain ⟨g, _, rfl⟩ := hop
  rfl

lemma hunkDeleteOps_op_type (h : Hunk) (isNew : Bool) :
    ∀ op ∈ hunkDeleteOps h isNew, op.op_type = "delete" := by
  intro op hop
  simp only [hunkDeleteOps] at hop
  split at hop
  · exact buildDeleteOperations_op_type _ op hop
  · simp at hop

lemma hunkInsertOps_op_type (h : Hunk) :
    ∀ op ∈ hunkInsertOps h, op.op_type = "insert" := by
  intro op hop
  simp only [hunkInsertOps] at hop
  split at hop
  · exact buildInsertOperations_op_type _ op hop
  · simp at hop

/-! ## Claim theorems C1, C7, C8 -/

/-- C1: the round-trip property fails on the code.  For the accepted diff
`@@ -1,3 +1,1 @@` removing lines 1 and 3 of the three-line pre-image
`["a\n","b\n","c\n"]`, the compiler emits `[delete 1, delete 3]` in
pre-image coordinates; applying them in emitted order (each delete removing
the inclusive range it names from the current document) leaves
`["b\n","c\n"]`, not the post-image `["b\n"]`: the second delete's line
number is stale after the first delete shifts the document. -/
theorem round_trip_failure :
    processHunk hunkC1 false =
      [{ op_type := "delete", line := 1 }, { op_type := "delete", line := 3 }]
    ∧ hunkSourceLines hunkC1 = ["a\n", "b\n", "c\n"]
    ∧ hunkTargetLines hunkC1 = ["b\n"]
    ∧ applyOperations ["a\n", "b\n", "c\n"] (processHunk hunkC1 false) =
        ["b\n", "c\n"]
    ∧ (["b\n", "c\n"] : List String) ≠ ["b\n"] := by
  refine ⟨by decide, by decide, by decide, by decide, by decide⟩

/-- C7: within one hunk all delete operations precede all insert operations;
a file's operations are the per-hunk lists in hunk encounter order, never
merged across hunks; scenario A compiles to
`[delete(line=10), insert(line=10, content="<L1>\n<L2>\n")]`. -/
theorem hunk_delete_before_insert (h : Hunk) (isNew : Bool) (pf : PatchedFile)
    (hb : pf.is_binary_file = false) (hr : pf.is_removed_file = false) :
    processHunk h isNew = hunkDeleteOps h isNew ++ hunkInsertOps h
    ∧ (∀ op ∈ hunkDeleteOps h isNew, op.op_type = "delete")
    ∧ (∀ op ∈ hunkInsertOps h, op.op_type = "insert")
    ∧ processPatchedFile pf = some
        { path := stripB pf.path, is_new := pf.is_added_file,
          is_deleted := false,
          operations :=
            (pf.hunks.map fun hk => processHunk hk pf.is_added_file).flatten }
    ∧ processHunk hunkA false =
        [{ op_type := "delete", line := 10 },
         { op_type := "insert", line := 10, content := some ("<L1>\n<L2>\n") }] := by
  refine ⟨rfl, hunkDeleteOps_op_type h isNew, hunkInsertOps_op_type h,
    ?_, by decide⟩
  simp [processPatchedFile, hb, hr]

/-- Witness for C7 at a concrete patched file and hunk. -/
theorem hunk_delete_before_insert_witness :
    processPatchedFile pfA = some
      { path := stripB pfA.path, is_new := pfA.is_added_file,
        is_deleted := false,
        operations :=
          (pfA.hunks.map fun hk => processHunk hk pfA.is_added_file).flatten }
    ∧ processHunk hunkA false =
        [{ op_type := "delete", line := 10 },
         { op_type := "insert", line := 10, content := some ("<L1>\n<L2>\n") }] :=
  ⟨(hunk_delete_before_insert hunkA false pfA rfl rfl).2.2.2.1,
   (hunk_delete_before_insert hunkA false pfA rfl rfl).2.2.2.2⟩

/-- C8: for a newly created file the compiler suppresses all delete
operations but still emits the insert operations; scenario B (new file,
three added lines, none removed) compiles to exactly one insert at line 1
and zero deletes. -/
theorem new_file_suppresses_deletes (h : Hunk) :
    processHunk h true = hunkInsertOps h
    ∧ hunkDeleteOps h true = []
    ∧ (∀ op ∈ processHunk h true, op.op_type = "insert")
    ∧ processHunk hunkB true =
        [{ op_type := "insert", line := 1, content := some ("A\nB\nC\n") }] := by
  have hd : hunkDeleteOps h true = [] := by
    simp [hunkDeleteOps]
  refine ⟨?_, hd, ?_, by decide⟩
  · simp [processHunk, hd]
  · intro op hop
    rw [processHunk, hd, List.nil_append] at hop
    exact hunkInsertOps_op_type h op hop

/-! ## Claim C6: the grouping partitions ascending line numbers into
maximal consecutive runs -/

lemma deleteGroupsAux_flatMap (l : List (Nat × String)) : ∀ cs ce : Nat,
    cs ≤ ce → List.Chain' (fun a b => a < b) (ce :: l.map Prod.fst) →
    (deleteGroupsAux cs ce l).flatMap (fun g => List.range' g.1 (g.2 + 1 - g.1)) =
      List.range' cs (ce + 1 - cs) ++ l.map Prod.fst := by
  induction l with
  | nil => intro cs ce _ _; simp [deleteGroupsAux]
  | cons x rest ih =>
    intro cs ce hcs hch
    obtain ⟨n, v⟩ := x
    simp only [List.map_cons, List.chain'_cons] at hch
    obtain ⟨hlt, hch'⟩ := hch
    simp only [deleteGroupsAux]
    by_cases hn : n = ce + 1
    · subst hn
      rw [if_pos rfl, ih cs (ce + 1) (Nat.le_succ_of_le hcs) hch']
      have h1 : ce + 1 + 1 - cs = (ce + 1 - cs) + 1 := by omega
      have h2 : cs + 1 * (ce + 1 - cs) = ce + 1 := by omega
      rw [h1, List.range'_concat, h2, List.append_assoc, List.singleton_append,
        List.map_cons]
    · rw [if_neg hn, List.flatMap_cons, ih n n le_rfl hch']
      have h1 : List.range' n (n + 1 - n) = [n] := by
        have : n + 1 - n = 1 := by omega
        rw [this, List.range'_one]
      rw [h1, List.singleton_append, List.map_cons]

lemma deleteGroupsAux_le (l : List (Nat × String)) : ∀ cs ce : Nat,
    cs ≤ ce → List.Chain' (fun a b => a < b) (ce :: l.map Prod.fst) →
    ∀ g ∈ deleteGroupsAux cs ce l, g.1 ≤ g.2 := by
  induction l with
  | nil =>
    intro cs ce hcs _ g hg
    simp only [deleteGroupsAux, List.mem_singleton] at hg
    subst hg; exact hcs
  | cons x rest ih =>
    intro cs ce hcs hch g hg
    obtain ⟨n, v⟩ := x
    simp only [List.map_cons, List.chain'_cons] at hch
    obtain ⟨hlt, hch'⟩ := hch
    simp only [deleteGroupsAux] at hg
    by_cases hn : n = ce + 1
    · rw [if_pos hn] at hg
      subst hn
      exact ih cs (ce + 1) (Nat.le_succ_of_le hcs) hch' g hg
    · rw [if_neg hn, List.mem_cons] at hg
      rcases hg with hg | hg
      · subst hg; exact hcs
      · exact ih n n le_rfl hch' g hg

lemma deleteGroupsAux_head (l : List (Nat × String)) : ∀ cs ce : Nat,
    ∃ b t, deleteGroupsAux cs ce l = (cs, b) :: t := by
  induction l with
  | nil => intro cs ce; exact ⟨ce, [], rfl⟩
  | cons x rest ih =>
    intro cs ce
    obtain ⟨n, v⟩ := x
    simp only [deleteGroupsAux]
    by_cases hn : n = ce + 1
    · rw [if_pos hn]; exact ih cs n
    · rw [if_neg hn]; exact ⟨ce, deleteGroupsAux n n rest, rfl⟩

lemma deleteGroupsAux_gap (l : List (Nat × String)) : ∀ cs ce : Nat,
    List.Chain' (fun a b => a < b) (ce :: l.map Prod.fst) →
    List.Chain' (fun g h => g.2 + 1 < h.1) (deleteGroupsAux cs ce l) := by
  induction l with
  | nil => intro cs ce _; simp [deleteGroupsAux]
  | cons x rest ih =>
    intro cs ce hch
    obtain ⟨n, v⟩ := x
    simp only [List.map_cons, List.chain'_cons] at hch
    obtain ⟨hlt, hch'⟩ := hch
    simp only [deleteGroupsAux]
    by_cases hn : n = ce + 1
    · rw [if_pos hn]; subst hn; exact ih cs (ce + 1) hch'
    · rw [if_neg hn]
      obtain ⟨b, t, heq⟩ := deleteGroupsAux_head rest n n
      rw [heq, List.chain'_cons]
      refine ⟨by omega, ?_⟩
      rw [← heq]
      exact ih n n hch'

lemma insertGroupsAux_flatten (l : List (Nat × String)) :
    ∀ (cur : List (Nat × String)) (prev : Nat),
    (insertGroupsAux cur prev l).flatten = cur ++ l := by
  induction l with
  | nil => intro cur prev; simp [insertGroupsAux]
  | cons x rest ih =>
    intro cur prev
    obtain ⟨n, v⟩ := x
    simp only [insertGroupsAux]
    by_cases hn : n = prev + 1
    · rw [if_pos hn, ih (cur ++ [(n, v)]) n, List.append_assoc,
        List.singleton_append]
    · rw [if_neg hn, List.flatten_cons, ih [(n, v)] n, List.singleton_append]

lemma insertGroupsAux_ne_nil (l : List (Nat × String)) :
    ∀ (cur : List (Nat × String)) (prev : Nat), cur ≠ [] →
    ∀ g ∈ insertGroupsAux cur prev l, g ≠ [] := by
  induction l with
  | nil =>
    intro cur prev hcur g hg
    simp only [insertGroupsAux, List.mem_singleton] at hg
    subst hg; exact hcur
  | cons x rest ih =>
    intro cur prev hcur g hg
    obtain ⟨n, v⟩ := x
    simp only [insertGroupsAux] at hg
    by_cases hn : n = prev + 1
    · rw [if_pos hn] at hg
      exact ih (cur ++ [(n, v)]) n (by simp) g hg
    · rw [if_neg hn, List.mem_cons] at hg
      rcases hg with hg | hg
      · subst hg; exact hcur
      · exact ih [(n, v)] n (by simp) g hg

lemma insertGroupsAux_consec (l : List (Nat × String)) :
    ∀ (cur : List (Nat × String)) (prev : Nat),
    List.Chain' (fun a b => b.1 = a.1 + 1) cur →
    cur.getLast?.map Prod.fst = some prev →
    List.Chain' (fun a b => a < b) (prev :: l.map Prod.fst) →
    ∀ g ∈ insertGroupsAux cur prev l,
      List.Chain' (fun a b => b.1 = a.1 + 1) g := by
  induction l with
  | nil =>
    intro cur prev hcur _ _ g hg
    simp only [insertGroupsAux, List.mem_singleton] at hg
    subst hg; exact hcur
  | cons x rest ih =>
    intro cur prev hcur hlast hch g hg
    obtain ⟨n, v⟩ := x
    simp only [List.map_cons, List.chain'_cons] at hch
    obtain ⟨hlt, hch'⟩ := hch
    obtain ⟨p, hp, hp1⟩ := Option.map_eq_some'.mp hlast
    simp only [insertGroupsAux] at hg
    by_cases hn : n = prev + 1
    · rw [if_pos hn] at hg
      refine ih (cur ++ [(n, v)]) n ?_ ?_ hch' g hg
      · rw [List.chain'_append]
        refine ⟨hcur, List.chain'_singleton _, ?_⟩
        intro a ha b hb
        rw [hp] at ha
        simp only [Option.mem_def, Option.some_inj] at ha
        simp only [List.head?_cons, Option.mem_def, Option.some_inj] at hb
        subst ha; subst hb
        simp [hn, hp1]
      · rw [List.getLast?_concat]; rfl
    · rw [if_neg hn, List.mem_cons] at hg
      rcases hg with hg | hg
      · subst hg; exact hcur
      · exact ih [(n, v)] n (List.chain'_singleton _) rfl hch' g hg

/-- The maximality relation between adjacent insert groups: the next group
does not continue the previous one. -/
def insertGapRel (g h : List (Nat × String)) : Prop :=
  ∀ p ∈ g.getLast?, ∀ q ∈ h.head?, p.1 + 1 < q.1

lemma insertGroupsAux_head (l : List (Nat × String)) :
    ∀ (cur : List (Nat × String)) (prev : Nat) (c : Nat × String)
      (cs : List (Nat × String)), cur = c :: cs →
    ∃ g t, insertGroupsAux cur prev l = g :: t ∧ g.head? = some c := by
  induction l with
  | nil =>
    intro cur prev c cs hcur
    exact ⟨cur, [], rfl, by rw [hcur]; rfl⟩
  | cons x rest ih =>
    intro cur prev c cs hcur
    obtain ⟨n, v⟩ := x
    simp only [insertGroupsAux]
    by_cases hn : n = prev + 1
    · rw [if_pos hn]
      exact ih (cur ++ [(n, v)]) n c (cs ++ [(n, v)]) (by rw [hcur]; rfl)
    · rw [if_neg hn]
      exact ⟨cur, insertGroupsAux [(n, v)] n rest, rfl, by rw [hcur]; rfl⟩

lemma insertGroupsAux_gap (l : List (Nat × String)) :
    ∀ (cur : List (Nat × String)) (prev : Nat),
    cur.getLast?.map Prod.fst = some prev →
    List.Chain' (fun a b => a < b) (prev :: l.map Prod.fst) →
    List.Chain' insertGapRel (insertGroupsAux cur prev l) := by
  induction l with
  | nil => intro cur prev _ _; simp [insertGroupsAux]
  | cons x rest ih =>
    intro cur prev hlast hch
    obtain ⟨n, v⟩ := x
    simp only [List.map_cons, List.chain'_cons] at hch
    obtain ⟨hlt, hch'⟩ := hch
    obtain ⟨p, hp, hp1⟩ := Option.map_eq_some'.mp hlast
    simp only [insertGroupsAux]
    by_cases hn : n = prev + 1
    · rw [if_pos hn]
      exact ih (cur ++ [(n, v)]) n (by rw [List.getLast?_concat]; rfl) hch'
    · rw [if_neg hn]
      obtain ⟨g, t, heq, hhead⟩ :=
        insertGroupsAux_head rest [(n, v)] n (n, v) [] rfl
      rw [heq, List.chain'_cons]
      constructor
      · intro a ha b hb
        rw [hp] at ha
        simp only [Option.mem_def, Option.some_inj] at ha
        rw [hhead] at hb
        simp only [Option.mem_def, Option.some_inj] at hb
        subst ha; subst hb
        simp only [hp1]
        omega
      · rw [← heq]
        exact ih [(n, v)] n rfl hch'

/-- C6: for an ascending sequence of (line number, text) pairs, the
compiler's grouping partitions it in order into maximal runs of consecutive
line numbers: the delete groups cover exactly the input line numbers in
order, every group has `start ≤ end`, adjacent groups are separated by a
gap (maximality), non-empty input yields no empty group, the insert groups
flatten back to the input, are non-empty, internally consecutive and
separated by gaps, and line numbers `[3,4,5,9,10]` yield exactly the groups
`(3,5)` and `(9,10)`. -/
theorem line_grouping_spec (l : List (Nat × String))
    (hasc : List.Chain' (fun a b => a < b) (l.map Prod.fst)) :
    (deleteGroups l).flatMap (fun g => List.range' g.1 (g.2 + 1 - g.1)) =
        l.map Prod.fst
    ∧ (∀ g ∈ deleteGroups l, g.1 ≤ g.2)
    ∧ List.Chain' (fun g h => g.2 + 1 < h.1) (deleteGroups l)
    ∧ (l ≠ [] → deleteGroups l ≠ [])
    ∧ (insertGroups l).flatten = l
    ∧ (∀ g ∈ insertGroups l, g ≠ [])
    ∧ (∀ g ∈ insertGroups l, List.Chain' (fun a b => b.1 = a.1 + 1) g)
    ∧ List.Chain' insertGapRel (insertGroups l)
    ∧ deleteGroups [(3, "u"), (4, "v"), (5, "w"), (9, "x"), (10, "y")] =
        [(3, 5), (9, 10)] := by
  cases l with
  | nil =>
    refine ⟨rfl, by simp [deleteGroups], by simp [deleteGroups],
      by simp, rfl, by simp [insertGroups], by simp [insertGroups],
      by simp [insertGroups], by decide⟩
  | cons x rest =>
    obtain ⟨n, v⟩ := x
    rw [List.map_cons] at hasc
    have h1 : List.range' n (n + 1 - n) = [n] := by
      have : n + 1 - n = 1 := by omega
      rw [this, List.range'_one]
    refine ⟨?_, ?_, ?_, ?_, ?_, ?_, ?_, ?_, by decide⟩
    · show (deleteGroupsAux n n rest).flatMap _ = _
      rw [deleteGroupsAux_flatMap rest n n le_rfl hasc, h1]
      rfl
    · exact deleteGroupsAux_le rest n n le_rfl hasc
    · exact deleteGroupsAux_gap rest n n hasc
    · intro _
      show deleteGroupsAux n n rest ≠ []
      obtain ⟨b, t, heq⟩ := deleteGroupsAux_head rest n n
      rw [heq]
      exact List.cons_ne_nil _ _
    · show (insertGroupsAux [(n, v)] n rest).flatten = _
      rw [insertGroupsAux_flatten rest [(n, v)] n, List.singleton_append]
    · exact insertGroupsAux_ne_nil rest [(n, v)] n (by simp)
    · exact insertGroupsAux_consec rest [(n, v)] n
        (List.chain'_singleton _) rfl hasc
    · exact insertGroupsAux_gap rest [(n, v)] n rfl hasc

/-- Witness for C6 at the claim's concrete input `[3,4,5,9,10]`. -/
theorem line_grouping_spec_witness :
    deleteGroups [(3, "u"), (4, "v"), (5, "w"), (9, "x"), (10, "y")] =
      [(3, 5), (9, 10)] :=
  (line_grouping_spec [(3, "u"), (4, "v"), (5, "w"), (9, "x"), (10, "y")]
    (by simp)).2.2.2.2.2.2.2.2

/-- C9: `parse_diff_text` returns an empty list (not an error) for
whitespace-only input, and otherwise raises a structured parse error
exactly when the tokenizer cannot parse the text (the post-tokenization
compilation never raises). -/
theorem parse_diff_text_errors (tok : String → Except String (List PatchedFile))
    (text : String) :
    (text.data.all Char.isWhitespace = true → parseDiffText tok text = .ok [])
    ∧ (text.data.all Char.isWhitespace = false →
        ((∃ e, parseDiffText tok text = .error e) ↔ ∃ e, tok text = .error e)) := by
  constructor
  · intro hw
    simp [parseDiffText, hw]
  · intro hw
    simp only [parseDiffText, hw, Bool.false_eq_true, if_false]
    cases htok : tok text with
    | error e => simp
    | ok ps => simp

/-- A tokenizer that rejects everything; used only in the C9 witness. -/
def tokAllFail : String → Except String (List PatchedFile) :=
  fun _ => .error ("bad diff")

/-- Witness for C9: a whitespace-only diff yields `ok []`, and for non-blank
text a failing tokenizer yields an error. -/
theorem parse_diff_text_errors_witness :
    parseDiffText tokAllFail (" \n\t ") = .ok []
    ∧ ((∃ e, parseDiffText tokAllFail ("x") = .error e) ↔
        ∃ e, tokAllFail ("x") = .error e) :=
  ⟨(parse_diff_text_errors tokAllFail (" \n\t ")).1 (by decide),
   (parse_diff_text_errors tokAllFail ("x")).2 (by decide)⟩

/-! ## Session validation (`capture_tool.py`, class `SessionBuilder`)

JSON values are modelled by `J`.  Python `bool` is a subclass of `int`, so
`isinstance(x, int)` accepts booleans; `jIsInt`/`jToInt` mirror that. -/

/-- A JSON-like Python value, as found in a session dictionary. -/
inductive J where
  | null
  | int (i : Int)
  | str (s : String)
  | bool (b : Bool)
  | list (xs : List J)
  | dict (xs : List (String × J))

/-- `d.get(k)` on a Python dict: `None` for a missing key is conflated with
an explicit `null`, exactly as in Python. -/
def jget (d : List (String × J)) (k : String) : Option J :=
  (d.find? fun kv => kv.1 == k).map fun kv => kv.2

/-- `isinstance(x, int)` (Python booleans are ints). -/
def jIsInt : J → Bool
  | .int _ => true
  | .bool _ => true
  | _ => false

/-- The integer value of an int-like Python value. -/
def jToInt : J → Int
  | .int i => i
  | .bool b => if b then 1 else 0
  | _ => 0

/-- Python truthiness of a JSON-like value. -/
def jTruthy : J → Bool
  | .null => false
  | .int i => i != 0
  | .str s => s != ""
  | .bool b => b
  | .list xs => !xs.isEmpty
  | .dict xs => !xs.isEmpty

/-- `SessionBuilder._validate_operation`.  Error messages are kept close to
the source (quotes dropped).  The `Except.error` case models the uncaught
`TypeError` Python raises when `line_end < line` compares an `int` with a
non-int `line` (lines 558-561): the comparison is reached exactly when
`line_end` is an int, and blows up when `line` is not. -/
def validateOperation (op : J) (pre : String) : Except String (List String) :=
  match op with
  | .dict d =>
    let typeErrs : List String :=
      if (match jget d ("type") with
          | some (.str s) => s == "navigate" || s == "delete" || s == "insert"
          | _ => false)
      then [] else [pre ++ ".type: must be navigate, delete, or insert"]
    let lineJ := (jget d ("line")).getD .null
    let lineErrs : List String :=
      if jIsInt lineJ ∧ 1 ≤ jToInt lineJ then []
      else [pre ++ ".line: must be a positive integer"]
    let contentErrs : List String :=
      if (match jget d ("type") with
          | some (.str s) => s == "insert"
          | _ => false)
      then
        match jget d ("content") with
        | none => [pre ++ ".content: required for insert operations"]
        | some .null => [pre ++ ".content: required for insert operations"]
        | some _ => []
      else []
    match (jget d ("line_end")).getD .null with
    | .null => .ok (typeErrs ++ lineErrs ++ contentErrs)
    | lineEndJ =>
      if jIsInt lineEndJ then
        if jIsInt lineJ then
          if jToInt lineEndJ < jToInt lineJ then
            .ok (typeErrs ++ lineErrs ++
              [pre ++ ".line_end: must be >= line"] ++ contentErrs)
          else .ok (typeErrs ++ lineErrs ++ contentErrs)
        else .error ("TypeError: < not supported between int and non-int")
      else
        .ok (typeErrs ++ lineErrs ++
          [pre ++ ".line_end: must be >= line"] ++ contentErrs)
  | _ => .ok [pre ++ ": must be an object"]

/-- The operation loop of `SessionBuilder._validate_file_entry`
(lines 524-526): errors accumulate; an exception propagates. -/
def validateOps (pre : String) : Nat → List J → Except String (List String)
  | _, [] => .ok []
  | j, op :: rest => do
    let e1 ← validateOperation op (pre ++ ".operations[" ++ toString j ++ "]")
    let e2 ← validateOps pre (j + 1) rest
    .ok (e1 ++ e2)

/-- `SessionBuilder._validate_file_entry`. -/
def validateFileEntry (f : J) (i : Nat) : Except String (List String) :=
  let pre := "files[" ++ toString i ++ "]"
  match f with
  | .dict d =>
    let pathErrs : List String :=
      if (match jget d ("path") with
          | some (.str s) => s != ""
          | _ => false)
      then [] else [pre ++ ".path: must be a non-empty string"]
    match (jget d ("operations")).getD (.list []) with
    | .list ops => do
      let e ← validateOps pre 0 ops
      .ok (pathErrs ++ e)
    | _ => .ok (pathErrs ++ [pre ++ ".operations: must be a list"])
  | _ => .ok [pre ++ ": must be an object"]

/-- The file loop of `SessionBuilder.validate_session` (lines 489-491). -/
def validateFiles : Nat → List J → Except String (List String)
  | _, [] => .ok []
  | i, f :: rest => do
    let e1 ← validateFileEntry f i
    let e2 ← validateFiles (i + 1) rest
    .ok (e1 ++ e2)

/-- `SessionBuilder.validate_session`: required-field check, session-id
check, then per-file validation.  A `TypeError` raised by an operation check
propagates out as `Except.error`. -/
def validateSession (session : List (String × J)) : Except String (List String) :=
  let required := ["session_id", "contract_id", "memo", "files"]
  let missingErrs := required.foldl
    (fun acc f =>
      if (jget session f).isSome then acc
      else acc ++ ["Missing required field: " ++ f]) []
  let sid := (jget session ("session_id")).getD (.str (""))
  let sidErrs : List String :=
    if jTruthy sid && (match sid with | .str _ => true | _ => false) then []
    else ["session_id must be a non-empty string"]
  match (jget session ("files")).getD (.list []) with
  | .list fs => do
    let e ← validateFiles 0 fs
    .ok (missingErrs ++ sidErrs ++ e)
  | _ => .ok (missingErrs ++ sidErrs ++ ["files must be a list"])

/-- A structurally valid session whose single operation is missing `line`
but carries an integer `line_end` — the multi-violation operation named by
the claim. -/
def sessBad : List (String × J) :=
  [("session_id", .str ("session_20240101_000000")),
   ("contract_id", .str ("c1")),
   ("memo", .str ("m")),
   ("files", .list
     [.dict
       [("path", .str ("a.py")),
        ("operations", .list
          [.dict [("type", .str ("delete")), ("line_end", .int 5)]])]])]

/-- C3: `validate_session` is claimed to return the complete violation list
without raising; on an operation with a missing `line` and a present
integer `line_end` it instead evaluates `line_end < line` against `None`
and raises a `TypeError`, so no list is returned at all. -/
theorem validate_session_type_error :
    validateSession sessBad =
      .error ("TypeError: < not supported between int and non-int") := by
  rfl

/-! ## Replay configuration (`replay_engine.py`, `vscode_controller.py`) -/

/-- The typing-simulation settings of `VSCodeController` (constructor,
lines 100-113), plus the `_chars_typed` fatigue counter.  Floats are
rationals. -/
structure SimState where
  base_wpm : ℚ
  wpm_variance : ℚ
  typo_probability : ℚ
  typo_correction_probability : ℚ
  thinking_pause_probability : ℚ
  thinking_pause_min : ℚ
  thinking_pause_max : ℚ
  fatigue_factor : ℚ
  bigram_acceleration : Bool
  bigram_factor : ℚ
  chars_typed : Nat
deriving DecidableEq, Repr

/-- `VSCodeController._validate_config` (lines 119-149): raises
`ConfigurationError` (here `Except.error`) on the first out-of-range value. -/
def validateConfig (s : SimState) : Except String Unit :=
  if s.base_wpm ≤ 0 then .error ("base_wpm must be positive")
  else if ¬(0 ≤ s.typo_probability ∧ s.typo_probability ≤ 1) then
    .error ("typo_probability must be between 0 and 1")
  else if ¬(0 ≤ s.typo_correction_probability ∧
      s.typo_correction_probability ≤ 1) then
    .error ("typo_correction_probability must be between 0 and 1")
  else if ¬(0 ≤ s.thinking_pause_probability ∧
      s.thinking_pause_probability ≤ 1) then
    .error ("thinking_pause_probability must be between 0 and 1")
  else if s.thinking_pause_min < 0 ∨
      s.thinking_pause_max < s.thinking_pause_min then
    .error ("Invalid thinking pause range")
  else .ok ()

/-- A value in a `replay_config` dictionary. -/
inductive CVal where
  | num (q : ℚ)
  | bool (b : Bool)
deriving DecidableEq, Repr

/-- `data.get(k)` for a replay-config dictionary. -/
def cget (d : List (String × CVal)) (k : String) : Option CVal :=
  (d.find? fun kv => kv.1 == k).map fun kv => kv.2

/-- A numeric config entry (Python stores whatever the dict holds; booleans
behave as 0/1 in arithmetic). -/
def cgetNum (d : List (String × CVal)) (k : String) : Option ℚ :=
  match cget d k with
  | some (.num q) => some q
  | some (.bool b) => some (if b then 1 else 0)
  | none => none

/-- `ReplayConfig` from `replay_engine.py` (lines 162-175). -/
structure ReplayConfig where
  base_wpm : Option ℚ := none
  typo_probability : Option ℚ := none
  thinking_pause_probability : Option ℚ := none
  thinking_pauses : Bool := true
deriving DecidableEq, Repr

/-- `ReplayConfig.from_dict` (lines 177-195): a falsy dict yields the
defaults; otherwise the four fields are read with `.get` — with no range
validation of any kind. -/
def ReplayConfig.fromDict (data : Option (List (String × CVal))) : ReplayConfig :=
  match data with
  | none => {}
  | some d =>
    if d.isEmpty then {}
    else
      { base_wpm := cgetNum d ("base_wpm"),
        typo_probability := cgetNum d ("typo_probability"),
        thinking_pause_probability := cgetNum d ("thinking_pause_probability"),
        thinking_pauses :=
          match cget d ("thinking_pauses") with
          | some (.bool b) => b
          | some (.num q) => q != 0
          | none => true }

/-- Insertion into a Python dict: an existing key's value is overwritten in
place, a new key is appended. -/
def dictInsert (d : List (String × ℚ)) (k : String) (v : ℚ) :
    List (String × ℚ) :=
  match d with
  | [] => [(k, v)]
  | (k0, v0) :: rest =>
    if k0 == k then (k, v) :: rest else (k0, v0) :: dictInsert rest k v

/-- `ReplayEngine._apply_session_config` (lines 452-482): each override
saves the controller's current value in `original` and installs the
override; `thinking_pauses = false` additionally saves the *current*
thinking-pause probability (possibly the just-installed override) and zeroes
it. -/
def applySessionConfig (vs : SimState) (rc : ReplayConfig) :
    SimState × List (String × ℚ) :=
  let original : List (String × ℚ) := []
  let (vs, original) :=
    match rc.base_wpm with
    | some w => ({ vs with base_wpm := w },
        dictInsert original ("base_wpm") vs.base_wpm)
    | none => (vs, original)
  let (vs, original) :=
    match rc.typo_probability with
    | some p => ({ vs with typo_probability := p },
        dictInsert original ("typo_probability") vs.typo_probability)
    | none => (vs, original)
  let (vs, original) :=
    match rc.thinking_pause_probability with
    | some p => ({ vs with thinking_pause_probability := p },
        dictInsert original ("thinking_pause_probability")
          vs.thinking_pause_probability)
    | none => (vs, original)
  if rc.thinking_pauses then (vs, original)
  else ({ vs with thinking_pause_probability := 0 },
    dictInsert original ("thinking_pause_probability")
      vs.thinking_pause_probability)

/-- `setattr(self.vscode, key, value)` for the three overridable settings. -/
def setField (vs : SimState) (k : String) (v : ℚ) : SimState :=
  if k == "base_wpm" then { vs with base_wpm := v }
  else if k == "typo_probability" then { vs with typo_probability := v }
  else if k == "thinking_pause_probability" then
    { vs with thinking_pause_probability := v }
  else vs

/-- `ReplayEngine._restore_config` (lines 484-491), run in the `finally`
block of `execute` on every exit path. -/
def restoreConfig (original : List (String × ℚ)) (vs : SimState) : SimState :=
  original.foldl (fun s kv => setField s kv.1 kv.2) vs

/-- The controller settings before the `execute` call used in C2 and C5:
the source defaults, which `_validate_config` accepts. -/
def vsPre : SimState :=
  { base_wpm := 85, wpm_variance := 1/5, typo_probability := 1/50,
    typo_correction_probability := 19/20, thinking_pause_probability := 1/10,
    thinking_pause_min := 3, thinking_pause_max := 8,
    fatigue_factor := 1/2000, bigram_acceleration := true,
    bigram_factor := 3/5, chars_typed := 0 }

/-- A session config that both overrides `thinking_pause_probability` and
disables thinking pauses. -/
def rcBug : ReplayConfig :=
  { thinking_pause_probability := some (1/2), thinking_pauses := false }

/-- C2: config restoration fails on the code.  When a session both overrides
`thinking_pause_probability` (here to 1/2) and sets `thinking_pauses` to
false, `_apply_session_config` overwrites the saved pre-call value (1/10)
in `original` with the already-installed override, so the `finally`-block
restoration leaves the simulator at the override value 1/2 instead of the
pre-call 1/10. -/
theorem config_restoration_failure :
    vsPre.thinking_pause_probability = 1/10
    ∧ (applySessionConfig vsPre rcBug).2 =
        [("thinking_pause_probability", 1/2)]
    ∧ (restoreConfig (applySessionConfig vsPre rcBug).2
        (applySessionConfig vsPre rcBug).1).thinking_pause_probability = 1/2
    ∧ ((1 : ℚ)/2 ≠ 1/10) := by
  refine ⟨rfl, ?_, ?_, by norm_num⟩
  · rfl
  · rfl

/-- The session config `{"typo_probability": 1.5}` as deserialized by
`ReplayConfig.from_dict`. -/
def rcBad : ReplayConfig :=
  ReplayConfig.fromDict (some [("typo_probability", CVal.num (3/2))])

/-- C5 counterexample: a `ReplayConfig` with `typo_probability = 1.5` is
accepted for execution (`from_dict` performs no range validation) and the
engine's `_apply_session_config` installs the out-of-range value on a
controller whose own configuration passed `_validate_config`, violating the
probability invariant. -/
theorem config_invariants_not_enforced :
    rcBad = { typo_probability := some (3/2) }
    ∧ validateConfig vsPre = .ok ()
    ∧ (applySessionConfig vsPre rcBad).1.typo_probability = 3/2
    ∧ ¬((applySessionConfig vsPre rcBad).1.typo_probability ≤ 1) := by
  refine ⟨rfl, ?_, rfl, ?_⟩
  · norm_num [validateConfig, vsPre]
  · show ¬((3 : ℚ)/2 ≤ 1)
    norm_num

/-- C5 (amended): the invariants are enforced exactly by the controller's
constructor-time `_validate_config`: it accepts a configuration iff all
probabilities lie in `[0,1]`, `thinking_pause_min ≥ 0`,
`thinking_pause_max ≥ thinking_pause_min` and `base_wpm > 0`. -/
theorem validate_config_iff (s : SimState) :
    validateConfig s = .ok () ↔
      (0 < s.base_wpm
       ∧ 0 ≤ s.typo_probability ∧ s.typo_probability ≤ 1
       ∧ 0 ≤ s.typo_correction_probability ∧ s.typo_correction_probability ≤ 1
       ∧ 0 ≤ s.thinking_pause_probability ∧ s.thinking_pause_probability ≤ 1
       ∧ 0 ≤ s.thinking_pause_min
       ∧ s.thinking_pause_min ≤ s.thinking_pause_max) := by
  constructor
  · intro h
    unfold validateConfig at h
    rcases em (s.base_wpm ≤ 0) with hb | hb
    · rw [if_pos hb] at h
      exact absurd h (by simp)
    rw [if_neg hb] at h
    rcases em (0 ≤ s.typo_probability ∧ s.typo_probability ≤ 1) with hp | hp
    swap
    · rw [if_pos hp] at h
      exact absurd h (by simp)
    rw [if_neg (not_not_intro hp)] at h
    rcases em (0 ≤ s.typo_correction_probability ∧
      s.typo_correction_probability ≤ 1) with hc | hc
    swap
    · rw [if_pos hc] at h
      exact absurd h (by simp)
    rw [if_neg (not_not_intro hc)] at h
    rcases em (0 ≤ s.thinking_pause_probability ∧
      s.thinking_pause_probability ≤ 1) with ht | ht
    swap
    · rw [if_pos ht] at h
      exact absurd h (by simp)
    rw [if_neg (not_not_intro ht)] at h
    rcases em (s.thinking_pause_min < 0 ∨
      s.thinking_pause_max < s.thinking_pause_min) with hr | hr
    · rw [if_pos hr] at h
      exact absurd h (by simp)
    rw [not_or, not_lt, not_lt] at hr
    exact ⟨not_le.mp hb, hp.1, hp.2, hc.1, hc.2, ht.1, ht.2, hr.1, hr.2⟩
  · rintro ⟨c1, c2, c3, c4, c5, c6, c7, c8, c9⟩
    unfold validateConfig
    rw [if_neg (not_le.mpr c1), if_neg (not_not_intro ⟨c2, c3⟩),
      if_neg (not_not_intro ⟨c4, c5⟩), if_neg (not_not_intro ⟨c6, c7⟩),
      if_neg (by simp only [not_or, not_lt]; exact ⟨c8, c9⟩)]

/-! ## Typing simulator (`vscode_controller.py`)

All stochastic calls consume the head of a shared stream `g : List ℚ`,
modelling the process-global `random` module: `random.random()` is one
draw, `random.gauss(μ, σ)` is `μ + σ·z` for one draw `z`,
`random.uniform(a, b)` is `a + (b-a)·r` for one draw `r`, and
`random.choice(seq)` indexes `seq` by one draw. -/

/-- One draw from the shared global random stream. -/
def draw (g : List ℚ) : ℚ × List ℚ := (g.headD 0, g.tail)

/-- `random.uniform(a, b)`. -/
def uniformQ (a b : ℚ) (g : List ℚ) : ℚ × List ℚ :=
  let (r, g1) := draw g
  (a + (b - a) * r, g1)

/-- `VSCodeController.FAST_BIGRAMS`. -/
def FAST_BIGRAMS : List String :=
  ["th", "he", "in", "er", "an", "on", "or", "re", "ed", "nd",
   "ha", "at", "en", "es", "of", "nt", "ea", "ti", "to", "it",
   "st", "io", "le", "is", "ou", "ar", "as", "de", "rt", "ng"]

/-- `VSCodeController.ADJACENT_KEYS` as a function. -/
def adjacentKeys (c : Char) : Option String :=
  match c with
  | 'a' => some ("qwsz")
  | 'b' => some ("vghn")
  | 'c' => some ("xdfv")
  | 'd' => some ("erfcxs")
  | 'e' => some ("wrsdf")
  | 'f' => some ("rtgvcd")
  | 'g' => some ("tyhbvf")
  | 'h' => some ("yujnbg")
  | 'i' => some ("uojkl")
  | 'j' => some ("uikmnh")
  | 'k' => some ("ioljm")
  | 'l' => some ("opk")
  | 'm' => some ("njk")
  | 'n' => some ("bhjm")
  | 'o' => some ("iplk")
  | 'p' => some ("ol")
  | 'q' => some ("wa")
  | 'r' => some ("etdf")
  | 's' => some ("wedxza")
  | 't' => some ("ryfg")
  | 'u' => some ("yihj")
  | 'v' => some ("cfgb")
  | 'w' => some ("qeas")
  | 'x' => some ("zsdc")
  | 'y' => some ("tugh")
  | 'z' => some ("asx")
  | '1' => some ("2q")
  | '2' => some ("13qw")
  | '3' => some ("24we")
  | '4' => some ("35er")
  | '5' => some ("46rt")
  | '6' => some ("57ty")
  | '7' => some ("68yu")
  | '8' => some ("79ui")
  | '9' => some ("80io")
  | '0' => some ("9p")
  | _ => none

/-- `VSCodeController.TYPO_CANDIDATES`. -/
def TYPO_CANDIDATES : List Char :=
  "abcdefghijklmnopqrstuvwxyz0123456789".data

/-- `VSCodeController._calculate_keystroke_delay` (lines 421-455):
base delay from WPM, Gaussian variance (modelled as one draw), clamp to
`[0.01, 3·base]`, bigram acceleration, then the fatigue multiplier. -/
def calcKeystrokeDelay (s : SimState) (c : Char) (prev : Option Char)
    (g : List ℚ) : ℚ × List ℚ :=
  let base := 60 / (s.base_wpm * 5)
  let (z, g1) := draw g
  let d0 := base + base * s.wpm_variance * z
  let d1 := max (1/100) (min d0 (base * 3))
  let d2 :=
    if s.bigram_acceleration then
      match prev with
      | some p =>
        if (String.mk [p.toLower, c.toLower]) ∈ FAST_BIGRAMS then
          d1 * s.bigram_factor
        else d1
      | none => d1
    else d1
  (d2 * (1 + (s.chars_typed : ℚ) * s.fatigue_factor), g1)

/-- `VSCodeController._should_inject_typo` (lines 457-469): non-candidate
characters return `false` without consuming randomness. -/
def shouldInjectTypo (s : SimState) (c : Char) (g : List ℚ) :
    Bool × List ℚ :=
  if c.toLower ∈ TYPO_CANDIDATES then
    let (r, g1) := draw g
    (if r < s.typo_probability then true else false, g1)
  else (false, g)

/-- `random.choice` over the characters of a string: one draw indexes the
sequence (the default is unreachable for draws in `[0,1)`). -/
def choiceStr (cs : String) (g : List ℚ) : Char × List ℚ :=
  let (r, g1) := draw g
  (cs.data.getD (Int.toNat ⌊r * (cs.data.length : ℚ)⌋) 'a', g1)

/-- `VSCodeController._get_typo_char` (lines 471-492): an adjacent key with
case preserved, or a vowel fallback. -/
def getTypoChar (c : Char) (g : List ℚ) : Char × List ℚ :=
  match adjacentKeys c.toLower with
  | some adj =>
    let (t, g1) := choiceStr adj g
    (if c.isUpper then t.toUpper else t, g1)
  | none => choiceStr ("aeiou") g

/-- `VSCodeController._should_correct_typo` (lines 494-500). -/
def shouldCorrectTypo (s : SimState) (g : List ℚ) : Bool × List ℚ :=
  let (r, g1) := draw g
  (if r < s.typo_correction_probability then true else false, g1)

/-- `VSCodeController._should_pause_to_think` (lines 502-524): base
probability doubled after a structural character, halved after an
alphanumeric one, with no clamping. -/
def shouldPauseToThink (s : SimState) (c : Char) (g : List ℚ) :
    Bool × List ℚ :=
  let p0 := s.thinking_pause_probability
  let p1 := if c ∈ (".\n;\x7b\x7d()").data then p0 * 2 else p0
  let p2 := if c.isAlphanum then p1 * (1/2) else p1
  let (r, g1) := draw g
  (if r < p2 then true else false, g1)

/-- `VSCodeController._get_thinking_pause_duration` (lines 526-532). -/
def thinkingPauseDuration (s : SimState) (g : List ℚ) : ℚ × List ℚ :=
  uniformQ s.thinking_pause_min s.thinking_pause_max g

/-- One keystroke-level event of the typing loop.  `key c` is one
`_type_single_char(c)` call (for `'\n'` this includes the fixed
auto-indent-clearing key sequence), `wait` is a `time.sleep` before acting,
`think` is a thinking-pause sleep, `backspace` is the typo-correcting
`BackSpace` press. -/
inductive TypeEvent where
  | think (d : ℚ)
  | wait (d : ℚ)
  | key (c : Char)
  | backspace
deriving DecidableEq, Repr

/-- One iteration of the `type_code` character loop (lines 570-611), from
the delay calculation to the typo/correction handling, producing the events
of this iteration, the updated state and the remaining stream. -/
def stepChar (s : SimState) (prev : Option Char) (c : Char) (g : List ℚ) :
    List TypeEvent × SimState × List ℚ :=
  let (delay, g1) := calcKeystrokeDelay s c prev g
  let (pauseEvs, g2) :=
    match prev with
    | some p =>
      let (pq, ga) := shouldPauseToThink s p g1
      if pq then
        let (dur, gb) := thinkingPauseDuration s ga
        ([TypeEvent.think dur], gb)
      else ([], ga)
    | none => ([], g1)
  let (ti, g3) := shouldInjectTypo s c g2
  if ti then
    let (tc, g4) := getTypoChar c g3
    let s1 := { s with chars_typed := s.chars_typed + 1 }
    let (co, g5) := shouldCorrectTypo s1 g4
    if co then
      let (d1, g6) := uniformQ (1/10) (3/10) g5
      let (d2, g7) := uniformQ (1/20) (1/10) g6
      (pauseEvs ++ [.wait delay, .key tc, .wait d1, .backspace, .wait d2, .key c],
       { s1 with chars_typed := s1.chars_typed + 1 }, g7)
    else
      (pauseEvs ++ [.wait delay, .key tc],
       { s1 with chars_typed := s1.chars_typed + 1 }, g5)
  else
    (pauseEvs ++ [.wait delay, .key c],
     { s with chars_typed := s.chars_typed + 1 }, g3)

/-- The outcome of a `type_code` call: the return value (`Except.error`
models an exception propagating out of the loop), the controller state, the
global stream, and the emitted events. -/
structure TypeResult where
  result : Except Unit Bool
  state : SimState
  stream : List ℚ
  events : List TypeEvent
deriving Repr

/-- The `for i, char in enumerate(text)` loop of `type_code`
(lines 568-611).  `abortAt = some k` models the externally-owned abort flag
becoming set from iteration `k` on (checked at the top of each iteration,
returning `False`); `excAt = some k` models an exception raised by the
actuator during iteration `k`. -/
def typeCodeAux (abortAt excAt : Option Nat) :
    List Char → Nat → Option Char → SimState → List ℚ → TypeResult
  | [], _, _, s, g => { result := .ok true, state := s, stream := g, events := [] }
  | c :: rest, i, prev, s, g =>
    if abortAt.any fun k => decide (k ≤ i) then
      { result := .ok false, state := s, stream := g, events := [] }
    else if excAt = some i then
      { result := .error (), state := s, stream := g, events := [] }
    else
      let (ev, s1, g1) := stepChar s prev c g
      let r := typeCodeAux abortAt excAt rest (i + 1) (some c) s1 g1
      { r with events := ev ++ r.events }

/-- `VSCodeController.type_code` (lines 534-618): the pre-call `base_wpm`
and `typo_probability` are saved, the per-call overrides installed, the
character loop run, and the saved values restored in the `finally` block on
every exit (normal return, abort return, or exception). -/
def typeCode (text : List Char) (wpmOv typoOv : Option ℚ)
    (abortAt excAt : Option Nat) (s : SimState) (g : List ℚ) : TypeResult :=
  let originalWpm := s.base_wpm
  let originalTypo := s.typo_probability
  let s1 := { s with base_wpm := wpmOv.getD s.base_wpm,
                     typo_probability := typoOv.getD s.typo_probability }
  let r := typeCodeAux abortAt excAt text 0 none s1 g
  { r with state :=
      { r.state with base_wpm := originalWpm, typo_probability := originalTypo } }

/-- `ReplayEngine._execute_insert` (lines 569-600): empty content returns
immediately; otherwise the `typing_style` override computes per-call `wpm`
(`int()` truncation is `⌊·⌋`) and `typo_probability` arguments for
`type_code`.  The `goto_line` call is external actuation with no
simulator-state effect and is not modelled. -/
def executeInsert (style : Option String) (content : List Char)
    (abortAt excAt : Option Nat) (s : SimState) (g : List ℚ) : TypeResult :=
  if content = [] then
    { result := .ok true, state := s, stream := g, events := [] }
  else
    let wpm : Option ℚ :=
      if style = some ("fast") then some ((⌊s.base_wpm * (3/2)⌋ : ℤ) : ℚ)
      else if style = some ("slow") then some ((⌊s.base_wpm * (7/10)⌋ : ℤ) : ℚ)
      else none
    let typoProb : Option ℚ :=
      if style = some ("fast") then some (s.typo_probability * (1/2))
      else if style = some ("slow") then some (s.typo_probability * (3/2))
      else if style = some ("precise") then some 0
      else none
    typeCode content wpm typoProb abortAt excAt s g

/-- `ReplayEngine._maybe_pause_between_files` (lines 516-528): when thinking
pauses are enabled it draws `random.uniform(1.0, 3.0)` from the same
process-global stream the simulator uses. -/
def maybePauseBetweenFiles (rc : ReplayConfig) (g : List ℚ) :
    Option ℚ × List ℚ :=
  if rc.thinking_pauses then
    let (r, g1) := uniformQ 1 3 g
    (some r, g1)
  else (none, g)

/-- C10: on every exit of `type_code` (normal completion, abort return, or
exception), and through `_execute_insert` with any `typing_style` override,
the controller's `base_wpm` and `typo_probability` equal their pre-call
values: the `finally` block restores the values saved before the overrides
were installed. -/
theorem type_code_restores_settings (text : List Char) (wpmOv typoOv : Option ℚ)
    (abortAt excAt : Option Nat) (s : SimState) (g : List ℚ) :
    ((typeCode text wpmOv typoOv abortAt excAt s g).state.base_wpm = s.base_wpm
     ∧ (typeCode text wpmOv typoOv abortAt excAt s g).state.typo_probability =
         s.typo_probability)
    ∧ ∀ (style : Option String) (content : List Char),
        (executeInsert style content abortAt excAt s g).state.base_wpm =
          s.base_wpm
        ∧ (executeInsert style content abortAt excAt s g).state.typo_probability =
            s.typo_probability := by
  refine ⟨⟨rfl, rfl⟩, ?_⟩
  intro style content
  unfold executeInsert
  split
  · exact ⟨rfl, rfl⟩
  · exact ⟨rfl, rfl⟩

/-- The controller state used in the C4 counterexample (in range for
`_validate_config`; bigram acceleration off and fatigue zero only to keep
the arithmetic small). -/
def s0 : SimState :=
  { base_wpm := 60, wpm_variance := 1/5, typo_probability := 1/2,
    typo_correction_probability := 1, thinking_pause_probability := 0,
    thinking_pause_min := 3, thinking_pause_max := 8, fatigue_factor := 0,
    bigram_acceleration := false, bigram_factor := 3/5, chars_typed := 0 }

/-- A concrete global random stream. -/
def g0 : List ℚ := [1/10, 9/10, 0, 0, 0, 0, 0, 0]

/-- C4 counterexample: the simulator draws from the process-global stream,
which the engine's between-file pause also consumes.  With the same text,
config and simulator state, typing after one extra global draw (exactly
what `_maybe_pause_between_files` consumes) yields a different keystroke
sequence and different typo positions, so the event sequence is not a
function of an injected per-instance seed. -/
theorem simulator_global_randomness :
    (maybePauseBetweenFiles {} g0).2 = g0.tail
    ∧ (typeCode ['a'] none none none none s0 g0).events =
        [.wait (51/250), .key 'a']
    ∧ (typeCode ['a'] none none none none s0 g0.tail).events =
        [.wait (59/250), .key 'q', .wait (1/10), .backspace, .wait (1/20),
         .key 'a']
    ∧ (typeCode ['a'] none none none none s0 g0).events ≠
        (typeCode ['a'] none none none none s0 g0.tail).events := by
  have h2 : (typeCode ['a'] none none none none s0 g0).events =
      [.wait (51/250), .key 'a'] := by
    norm_num [typeCode, typeCodeAux, stepChar, calcKeystrokeDelay,
      shouldPauseToThink, shouldInjectTypo, getTypoChar, choiceStr,
      shouldCorrectTypo, uniformQ, thinkingPauseDuration, draw, s0, g0,
      TYPO_CANDIDATES, adjacentKeys, min_def, max_def,
      (show Char.toLower 'a' = 'a' from by decide),
      (show Char.isUpper 'a' = false from by decide),
      (show ("qwsz").data = ['q', 'w', 's', 'z'] from rfl),
      (show ((none : Option Nat) = some 0) = False from by simp)]
  have h3 : (typeCode ['a'] none none none none s0 g0.tail).events =
      [.wait (59/250), .key 'q', .wait (1/10), .backspace, .wait (1/20),
       .key 'a'] := by
    norm_num [typeCode, typeCodeAux, stepChar, calcKeystrokeDelay,
      shouldPauseToThink, shouldInjectTypo, getTypoChar, choiceStr,
      shouldCorrectTypo, uniformQ, thinkingPauseDuration, draw, s0, g0,
      TYPO_CANDIDATES, adjacentKeys, min_def, max_def,
      (show Char.toLower 'a' = 'a' from by decide),
      (show Char.isUpper 'a' = false from by decide),
      (show ("qwsz").data = ['q', 'w', 's', 'z'] from rfl),
      (show ((none : Option Nat) = some 0) = False from by simp)]
  refine ⟨by norm_num [maybePauseBetweenFiles, uniformQ, draw, g0], h2, h3, ?_⟩
  rw [h2, h3]
  simp

/-! ### Stream-consumption lemmas: each stochastic helper reads only the
head(s) of the stream and returns the rest unchanged.  The `...Val`
functions name the value computed from one draw, so the rewrite rules below
terminate. -/

/-- The delay computed by `_calculate_keystroke_delay` from one draw. -/
def calcDelayVal (s : SimState) (c : Char) (prev : Option Char) (x : ℚ) : ℚ :=
  (calcKeystrokeDelay s c prev [x]).1

/-- The decision of `_should_pause_to_think` from one draw. -/
def pauseVal (s : SimState) (c : Char) (x : ℚ) : Bool :=
  (shouldPauseToThink s c [x]).1

/-- The duration of `_get_thinking_pause_duration` from one draw. -/
def pauseDurVal (s : SimState) (x : ℚ) : ℚ :=
  (thinkingPauseDuration s [x]).1

/-- The decision of `_should_correct_typo` from one draw. -/
def correctVal (s : SimState) (x : ℚ) : Bool :=
  (shouldCorrectTypo s [x]).1

/-- The decision of `_should_inject_typo` from one draw. -/
def injectVal (s : SimState) (c : Char) (x : ℚ) : Bool :=
  (shouldInjectTypo s c [x]).1

/-- The character chosen by `_get_typo_char` from one draw. -/
def typoCharVal (c : Char) (x : ℚ) : Char :=
  (getTypoChar c [x]).1

lemma calcKeystrokeDelay_cons (s : SimState) (c : Char) (prev : Option Char)
    (x : ℚ) (g : List ℚ) :
    calcKeystrokeDelay s c prev (x :: g) = (calcDelayVal s c prev x, g) := rfl

lemma shouldPauseToThink_cons (s : SimState) (c : Char) (x : ℚ) (g : List ℚ) :
    shouldPauseToThink s c (x :: g) = (pauseVal s c x, g) := rfl

lemma thinkingPauseDuration_cons (s : SimState) (x : ℚ) (g : List ℚ) :
    thinkingPauseDuration s (x :: g) = (pauseDurVal s x, g) := rfl

lemma shouldCorrectTypo_cons (s : SimState) (x : ℚ) (g : List ℚ) :
    shouldCorrectTypo s (x :: g) = (correctVal s x, g) := rfl

lemma uniformQ_cons (a b x : ℚ) (g : List ℚ) :
    uniformQ a b (x :: g) = (a + (b - a) * x, g) := rfl

lemma shouldInjectTypo_pos {c : Char} (hm : c.toLower ∈ TYPO_CANDIDATES)
    (s : SimState) (x : ℚ) (g : List ℚ) :
    shouldInjectTypo s c (x :: g) = (injectVal s c x, g) := by
  unfold shouldInjectTypo injectVal shouldInjectTypo
  rw [if_pos hm, if_pos hm]
  rfl

lemma shouldInjectTypo_neg {c : Char} (hm : ¬ c.toLower ∈ TYPO_CANDIDATES)
    (s : SimState) (g : List ℚ) :
    shouldInjectTypo s c g = (false, g) := by
  unfold shouldInjectTypo
  rw [if_neg hm]

lemma getTypoChar_cons (c : Char) (x : ℚ) (g : List ℚ) :
    getTypoChar c (x :: g) = (typoCharVal c x, g) := by
  unfold getTypoChar typoCharVal getTypoChar choiceStr draw
  cases adjacentKeys c.toLower <;> rfl

/-- The character step consumes at most 8 draws: on a stream with 8 explicit
entries followed by `r ++ t`, the events and state are those of the run on
the stream without `t`, and `t` passes through untouched. -/
lemma stepChar_append (s : SimState) (prev : Option Char) (c : Char)
    (a1 a2 a3 a4 a5 a6 a7 a8 : ℚ) (r t : List ℚ) :
    stepChar s prev c (a1 :: a2 :: a3 :: a4 :: a5 :: a6 :: a7 :: a8 :: (r ++ t)) =
      ((stepChar s prev c (a1 :: a2 :: a3 :: a4 :: a5 :: a6 :: a7 :: a8 :: r)).1,
       (stepChar s prev c (a1 :: a2 :: a3 :: a4 :: a5 :: a6 :: a7 :: a8 :: r)).2.1,
       (stepChar s prev c (a1 :: a2 :: a3 :: a4 :: a5 :: a6 :: a7 :: a8 :: r)).2.2
         ++ t) := by
  cases prev with
  | none =>
    by_cases hm : c.toLower ∈ TYPO_CANDIDATES
    · simp only [stepChar, calcKeystrokeDelay_cons, shouldInjectTypo_pos hm,
        getTypoChar_cons, shouldCorrectTypo_cons, uniformQ_cons]
      split_ifs <;> rfl
    · simp only [stepChar, calcKeystrokeDelay_cons, shouldInjectTypo_neg hm,
        Bool.false_eq_true, if_false]
      rfl
  | some p =>
    by_cases hm : c.toLower ∈ TYPO_CANDIDATES
    · simp only [stepChar, calcKeystrokeDelay_cons, shouldPauseToThink_cons]
      cases hpq : pauseVal s p a2 <;>
        simp only [hpq, Bool.false_eq_true, eq_self_iff_true, if_true,
          if_false, thinkingPauseDuration_cons, shouldInjectTypo_pos hm,
          getTypoChar_cons, shouldCorrectTypo_cons, uniformQ_cons] <;>
        split_ifs <;> rfl
    · simp only [stepChar, calcKeystrokeDelay_cons, shouldPauseToThink_cons,
        thinkingPauseDuration_cons, shouldInjectTypo_neg hm,
        Bool.false_eq_true, if_false]
      split_ifs <;> rfl

set_option maxHeartbeats 1600000 in
/-- The character step consumes at most 8 draws: on a stream with 8 explicit
entries, the leftover stream retains at least the tail `r`. -/
lemma stepChar_stream_length (s : SimState) (prev : Option Char) (c : Char)
    (a1 a2 a3 a4 a5 a6 a7 a8 : ℚ) (r : List ℚ) :
    r.length ≤
      (stepChar s prev c
        (a1 :: a2 :: a3 :: a4 :: a5 :: a6 :: a7 :: a8 :: r)).2.2.length := by
  cases prev with
  | none =>
    by_cases hm : c.toLower ∈ TYPO_CANDIDATES
    · simp only [stepChar, calcKeystrokeDelay_cons, shouldInjectTypo_pos hm,
        getTypoChar_cons, shouldCorrectTypo_cons, uniformQ_cons]
      split_ifs <;> simp only [List.length_cons] <;> omega
    · simp only [stepChar, calcKeystrokeDelay_cons, shouldInjectTypo_neg hm,
        Bool.false_eq_true, if_false, List.length_cons]
      omega
  | some p =>
    by_cases hm : c.toLower ∈ TYPO_CANDIDATES
    · simp only [stepChar, calcKeystrokeDelay_cons, shouldPauseToThink_cons]
      cases hpq : pauseVal s p a2 <;>
        simp only [hpq, Bool.false_eq_true, eq_self_iff_true, if_true,
          if_false, thinkingPauseDuration_cons, shouldInjectTypo_pos hm,
          getTypoChar_cons, shouldCorrectTypo_cons, uniformQ_cons] <;>
        split_ifs <;> simp only [List.length_cons] <;> omega
    · simp only [stepChar, calcKeystrokeDelay_cons, shouldPauseToThink_cons,
        thinkingPauseDuration_cons, shouldInjectTypo_neg hm,
        Bool.false_eq_true, if_false]
      split_ifs <;> simp only [List.length_cons] <;> omega

lemma exists_eight (P : List ℚ) (h : 8 ≤ P.length) :
    ∃ a1 a2 a3 a4 a5 a6 a7 a8 r,
      P = a1 :: a2 :: a3 :: a4 :: a5 :: a6 :: a7 :: a8 :: r := by
  rcases P with - | ⟨a1, P⟩
  · simp only [List.length_nil] at h; omega
  rcases P with - | ⟨a2, P⟩
  · simp only [List.length_cons, List.length_nil] at h; omega
  rcases P with - | ⟨a3, P⟩
  · simp only [List.length_cons, List.length_nil] at h; omega
  rcases P with - | ⟨a4, P⟩
  · simp only [List.length_cons, List.length_nil] at h; omega
  rcases P with - | ⟨a5, P⟩
  · simp only [List.length_cons, List.length_nil] at h; omega
  rcases P with - | ⟨a6, P⟩
  · simp only [List.length_cons, List.length_nil] at h; omega
  rcases P with - | ⟨a7, P⟩
  · simp only [List.length_cons, List.length_nil] at h; omega
  rcases P with - | ⟨a8, P⟩
  · simp only [List.length_cons, List.length_nil] at h; omega
  exact ⟨a1, a2, a3, a4, a5, a6, a7, a8, P, rfl⟩

/-- The typing loop reads the stream only through its first `8·n` entries:
with those fixed, anything appended beyond them does not change the events,
the result, or the final state. -/
lemma typeCodeAux_take (text : List Char) :
    ∀ (i : Nat) (prev : Option Char) (abortAt excAt : Option Nat)
      (s : SimState) (P t u : List ℚ), 8 * text.length ≤ P.length →
    (typeCodeAux abortAt excAt text i prev s (P ++ t)).events =
        (typeCodeAux abortAt excAt text i prev s (P ++ u)).events
    ∧ (typeCodeAux abortAt excAt text i prev s (P ++ t)).result =
        (typeCodeAux abortAt excAt text i prev s (P ++ u)).result
    ∧ (typeCodeAux abortAt excAt text i prev s (P ++ t)).state =
        (typeCodeAux abortAt excAt text i prev s (P ++ u)).state := by
  induction text with
  | nil => intro i prev aA eA s P t u hP; exact ⟨rfl, rfl, rfl⟩
  | cons c rest ih =>
    intro i prev aA eA s P t u hP
    obtain ⟨a1, a2, a3, a4, a5, a6, a7, a8, r, rfl⟩ :=
      exists_eight P (le_trans (by simp only [List.length_cons]; omega) hP)
    simp only [typeCodeAux, List.cons_append]
    split_ifs with hab hex
    · exact ⟨rfl, rfl, rfl⟩
    · exact ⟨rfl, rfl, rfl⟩
    · simp only [stepChar_append]
      have hlen : 8 * rest.length ≤
          (stepChar s prev c
            (a1 :: a2 :: a3 :: a4 :: a5 :: a6 :: a7 :: a8 :: r)).2.2.length := by
        have hb := stepChar_stream_length s prev c a1 a2 a3 a4 a5 a6 a7 a8 r
        simp only [List.length_cons, List.length_append] at hb hP ⊢
        omega
      obtain ⟨he, hr, hs⟩ := ih (i + 1) (some c) aA eA
        (stepChar s prev c
          (a1 :: a2 :: a3 :: a4 :: a5 :: a6 :: a7 :: a8 :: r)).2.1
        (stepChar s prev c
          (a1 :: a2 :: a3 :: a4 :: a5 :: a6 :: a7 :: a8 :: r)).2.2 t u hlen
      exact ⟨by rw [he], hr, hs⟩

/-- C4 (amended): all simulator randomness comes from the shared
process-global stream (no injected per-instance source) — the engine's
between-file pause consumes from the same stream and shifts every later
simulator draw.  Reproducibility holds relative to the global stream state
at call entry: typing `n` characters reads at most `8·n` draws, and two
runs with the same text, overrides and state whose streams agree on that
prefix produce identical keystroke events (hence identical typo
positions), results and final states. -/
theorem simulator_reproducible (text : List Char) (wpmOv typoOv : Option ℚ)
    (abortAt excAt : Option Nat) (s : SimState) (g g' : List ℚ)
    (h : List.take (8 * text.length) g = List.take (8 * text.length) g') :
    (typeCode text wpmOv typoOv abortAt excAt s g).events =
        (typeCode text wpmOv typoOv abortAt excAt s g').events
    ∧ (typeCode text wpmOv typoOv abortAt excAt s g).result =
        (typeCode text wpmOv typoOv abortAt excAt s g').result
    ∧ (typeCode text wpmOv typoOv abortAt excAt s g).state =
        (typeCode text wpmOv typoOv abortAt excAt s g').state := by
  rcases le_or_lt (8 * text.length) g.length with hg | hg
  · have hg' : 8 * text.length ≤ g'.length := by
      have hl := congrArg List.length h
      simp only [List.length_take] at hl
      omega
    have e1 : g = List.take (8 * text.length) g ++ List.drop (8 * text.length) g :=
      (List.take_append_drop _ _).symm
    have e2 : g' =
        List.take (8 * text.length) g ++ List.drop (8 * text.length) g' := by
      rw [h]
      exact (List.take_append_drop _ _).symm
    have hPlen : 8 * text.length ≤ (List.take (8 * text.length) g).length := by
      simp only [List.length_take]
      omega
    obtain ⟨he, hr, hs⟩ := typeCodeAux_take text 0 none abortAt excAt
      { s with base_wpm := wpmOv.getD s.base_wpm,
               typo_probability := typoOv.getD s.typo_probability }
      (List.take (8 * text.length) g)
      (List.drop (8 * text.length) g) (List.drop (8 * text.length) g') hPlen
    rw [e1, e2]
    simp only [typeCode]
    exact ⟨he, hr, by rw [hs]⟩
  · have hgeq : List.take (8 * text.length) g = g :=
      List.take_of_length_le (by omega)
    have hl := congrArg List.length h
    simp only [List.length_take] at hl
    have hgeq' : List.take (8 * text.length) g' = g' :=
      List.take_of_length_le (by omega)
    rw [hgeq, hgeq'] at h
    rw [h]
    exact ⟨rfl, rfl, rfl⟩

/-- Witness for C4's amended theorem: two streams agreeing on the first
eight draws yield the same events for a one-character text. -/
theorem simulator_reproducible_witness :
    (typeCode ['a'] none none none none s0
        ([0, 0, 0, 0, 0, 0, 0, 0, 5] : List ℚ)).events =
      (typeCode ['a'] none none none none s0
        ([0, 0, 0, 0, 0, 0, 0, 0, 7] : List ℚ)).events :=
  (simulator_reproducible ['a'] none none none none s0
    ([0, 0, 0, 0, 0, 0, 0, 0, 5] : List ℚ)
    ([0, 0, 0, 0, 0, 0, 0, 0, 7] : List ℚ) rfl).1
